import Mathlib

/-!
# Verification of the `sb_dice` string-literal substitution tool

Shallow embedding of `src/src/main.rs`: a CLI tool that walks a parsed
TypeScript syntax tree (an swc `Module`), replaces the value of every plain
string literal (`Str` node) with the decimal string of a monotonically
increasing counter, records the original decoded values in order, and builds
a JSON mapping from each decimal index to the original value.

Embedding choices, traced to the source:

* swc stores `Str.value` as a `Wtf8Atom`; `as_str` yields `Some` of the
  decoded text exactly when the atom is valid UTF-8, and `None` otherwise.
  `Wtf8` models this: a decoded `String` or an undecodable payload.
* `Str` is the swc string-literal node: its `value` and the `raw` cache used
  by the code generator (`span` carries no behaviour here and is omitted).
* `TplElement` is the static segment of a template literal. It is a distinct
  swc node type, not a `Str`, so the visitor's `visit_mut_str` never fires
  on it; accordingly it is not a `Node` constructor but payload of `tpl`.
* `Node` models the traversable tree: `str` wraps a string-literal node,
  `tpl` is a template literal (its interpolated expressions, then its static
  `quasis`, matching swc's field order), and `other` is any other node kind
  (module items, expressions, TypeScript type annotations, import
  declarations, ...), carrying its kind tag and its children in the order
  swc's derived `VisitMut` traversal visits them (source order).
* `visitNodes` is swc's derived depth-first `VisitMut` traversal specialised
  to `StringReplacer`, which only overrides `visit_mut_str`: every node's
  children are visited in order, and each `Str` node is rewritten by
  `visit_mut_str`.
* `usize::to_string` is modelled by `decimalRepr` (standard decimal
  notation, most significant digit first, no sign, no leading zeros).
* `serde_json::Map` is modelled as an association list with insert-or-replace
  semantics; `main`'s mapping loop is `buildMapping`.
-/

/-- swc `Wtf8Atom`: either valid UTF-8 with a decoded text, or undecodable
(e.g. it contains an unpaired surrogate). -/
inductive Wtf8 where
  | valid : String → Wtf8
  | invalid : Wtf8
deriving DecidableEq

/-- Model of `Wtf8Atom::as_str`: the decoded text, when the atom is valid UTF-8. -/
def Wtf8.as_str : Wtf8 → Option String
  | .valid s => some s
  | .invalid => none

/-- swc `Str` node: string-literal value plus the raw source-text cache the
code generator prefers when present. -/
structure Str where
  value : Wtf8
  raw : Option String
deriving DecidableEq

/-- swc `TplElement`: one static text segment of a template literal. Its own
node type, never a `Str`. -/
structure TplElement where
  cooked : Option String
  raw : String
deriving DecidableEq

/-- The syntax tree as the `StringReplacer` traversal observes it: string
literal nodes, template literals (interpolated expressions then static
segments), and every other node kind with its children in visit order. -/
inductive Node where
  | str : Str → Node
  | tpl : List Node → List TplElement → Node
  | other : String → List Node → Node

/-- The `struct StringReplacer` from `main.rs`: the substitution counter and the
collected original strings, in order. -/
structure StringReplacer where
  counter : Nat
  originals : List String
deriving DecidableEq

/-- Constructor `StringReplacer::new()`. -/
def StringReplacer.new : StringReplacer :=
  { counter := 0, originals := [] }

/-- Big-endian decimal digits, with explicit fuel so the definition is
structural (the fuel `n + 1` always suffices, see `decimalDigitsAux_fuel`). -/
def decimalDigitsAux : Nat → Nat → List Nat
  | 0, _ => []
  | fuel + 1, n => if n < 10 then [n] else decimalDigitsAux fuel (n / 10) ++ [n % 10]

/-- Big-endian decimal digits of `n`. -/
def decimalDigits (n : Nat) : List Nat :=
  decimalDigitsAux (n + 1) n

/-- Rust's `usize::to_string`: standard decimal notation. -/
def decimalRepr (n : Nat) : String :=
  String.mk ((decimalDigits n).map (fun d => Char.ofNat (48 + d)))

/-- Numeric value of a big-endian digit list (left inverse of
`decimalDigits`). -/
def natOfDigits (ds : List Nat) : Nat :=
  ds.foldl (fun a d => 10 * a + d) 0

/-- Digit value of an ASCII digit character (left inverse of
`Char.ofNat (48 + d)` on digits). -/
def charToDigit (c : Char) : Nat :=
  c.toNat - 48

/-- Numeric value denoted by a decimal key string. -/
def keyVal (k : String) : Nat :=
  natOfDigits (k.data.map charToDigit)

/-- The method `StringReplacer::visit_mut_str` from `main.rs`: read the decoded value
(empty string when decoding is unavailable), append it to `originals`, set
the node's value to the counter's decimal string, clear `raw`, and increment
the counter. -/
def visit_mut_str (r : StringReplacer) (n : Str) : StringReplacer × Str :=
  let original := (n.value.as_str).getD ""
  let originals := r.originals ++ [original]
  let new_val := decimalRepr r.counter
  let n1 : Str := { n with value := Wtf8.valid new_val }
  let n2 : Str := { n1 with raw := none }
  ({ counter := r.counter + 1, originals := originals }, n2)

/-- swc's derived `VisitMut` traversal run with `StringReplacer`
(`module.visit_mut_with(&mut replacer)`): depth-first, children in order;
`Str` nodes go through `visit_mut_str`; `TplElement` segments and all other
node kinds are only recursed into, never rewritten. -/
def visitNodes (r : StringReplacer) : List Node → StringReplacer × List Node
  | [] => (r, [])
  | .str s :: ns =>
      let p1 := visit_mut_str r s
      let p2 := visitNodes p1.1 ns
      (p2.1, .str p1.2 :: p2.2)
  | .tpl exprs quasis :: ns =>
      let p1 := visitNodes r exprs
      let p2 := visitNodes p1.1 ns
      (p2.1, .tpl p1.2 quasis :: p2.2)
  | .other kind children :: ns =>
      let p1 := visitNodes r children
      let p2 := visitNodes p1.1 ns
      (p2.1, .other kind p1.2 :: p2.2)
termination_by ns => sizeOf ns

/-- The string-literal nodes of a forest, in traversal (source) order. -/
def strLits : List Node → List Str
  | [] => []
  | .str s :: ns => s :: strLits ns
  | .tpl exprs _ :: ns => strLits exprs ++ strLits ns
  | .other _ children :: ns => strLits children ++ strLits ns
termination_by ns => sizeOf ns

/-- Erase the payload of every string-literal node, keeping everything else
(kind tags, template static segments, structure). Two forests with equal
erasures agree everywhere except possibly at `Str` values and raw caches. -/
def eraseNodes : List Node → List Node
  | [] => []
  | .str _ :: ns => .str { value := Wtf8.valid "", raw := none } :: eraseNodes ns
  | .tpl exprs quasis :: ns => .tpl (eraseNodes exprs) quasis :: eraseNodes ns
  | .other kind children :: ns => .other kind (eraseNodes children) :: eraseNodes ns
termination_by ns => sizeOf ns

/-- The decoded text of a string-literal node, with the code's
`unwrap_or_default` fallback. -/
def decodeStr (s : Str) : String :=
  (s.value.as_str).getD ""

/-- The literal nodes produced for counters `c, c+1, ..., c+n-1`. -/
def placeholders (c n : Nat) : List Str :=
  (List.range n).map (fun i => { value := Wtf8.valid (decimalRepr (c + i)), raw := none })

/-- Model of `serde_json::Map::insert`: replace the value at an existing key, else add
the pair. -/
def mapInsert (m : List (String × String)) (k v : String) : List (String × String) :=
  if (m.map Prod.fst).contains k then
    m.map (fun p => if p.1 = k then (k, v) else p)
  else m ++ [(k, v)]

/-- The mapping loop of `main`: insert `(idx.to_string(), originals[idx])`
for each index in order, starting from an empty map. -/
def buildMapping (originals : List String) : List (String × String) :=
  originals.enum.foldl (fun map p => mapInsert map (decimalRepr p.1) p.2) []

/-- Model of `serde_json::Map::get`. -/
def mapGet (m : List (String × String)) (k : String) : Option String :=
  (m.find? (fun p => p.1 == k)).map Prod.snd

/-- Modelled from the spec: the key order in which `serde_json::to_string_pretty`
serializes the mapping object. The repository's `Cargo.toml` (which fixes
whether `serde_json` keeps insertion order via its `preserve_order` feature)
is not among the sources; the spec states the mapping file is serialized
"with stable, deterministic key ordering by increasing numeric value", i.e.
entries are emitted in the order `main`'s loop inserted them. -/
def serializedKeys (m : List (String × String)) : List String :=
  m.map Prod.fst

/-- The inverse path described by the spec's round-trip property: put
`mapping[p]` back into every literal currently holding a placeholder `p`
that is a key of the mapping. -/
def restoreStr (m : List (String × String)) (s : Str) : Str :=
  match s.value with
  | .valid p =>
      match mapGet m p with
      | some v => { s with value := Wtf8.valid v }
      | none => s
  | .invalid => s

/-- Apply `restoreStr` to every string-literal node of a forest. -/
def restoreNodes (m : List (String × String)) : List Node → List Node
  | [] => []
  | .str s :: ns => .str (restoreStr m s) :: restoreNodes m ns
  | .tpl exprs quasis :: ns => .tpl (restoreNodes m exprs) quasis :: restoreNodes m ns
  | .other kind children :: ns => .other kind (restoreNodes m children) :: restoreNodes m ns
termination_by ns => sizeOf ns

theorem decimalDigitsAux_fuel (f1 f2 n : Nat) (h1 : n < f1) (h2 : n < f2) :
    decimalDigitsAux f1 n = decimalDigitsAux f2 n := by
  match f1, f2 with
  | 0, _ => omega
  | _, 0 => omega
  | g1 + 1, g2 + 1 =>
      simp only [decimalDigitsAux]
      split
      · rfl
      · have hd : n / 10 < n := Nat.div_lt_self (by omega) (by omega)
        rw [decimalDigitsAux_fuel g1 g2 (n / 10) (by omega) (by omega)]

theorem decimalDigitsAux_succ (fuel n : Nat) :
    decimalDigitsAux (fuel + 1) n =
      if n < 10 then [n] else decimalDigitsAux fuel (n / 10) ++ [n % 10] := rfl

theorem decimalDigits_eq (n : Nat) :
    decimalDigits n = if n < 10 then [n] else decimalDigits (n / 10) ++ [n % 10] := by
  rw [decimalDigits, decimalDigitsAux_succ]
  split
  · rfl
  · have hd : n / 10 < n := Nat.div_lt_self (by omega) (by omega)
    rw [decimalDigits, decimalDigitsAux_fuel n (n / 10 + 1) (n / 10) (by omega) (by omega)]

theorem natOfDigits_append_digit (ds : List Nat) (d : Nat) :
    natOfDigits (ds ++ [d]) = 10 * natOfDigits ds + d := by
  simp [natOfDigits, List.foldl_append]

theorem natOfDigits_decimalDigits (n : Nat) : natOfDigits (decimalDigits n) = n := by
  rw [decimalDigits_eq]
  split
  · simp [natOfDigits]
  · have hd : n / 10 < n := Nat.div_lt_self (by omega) (by omega)
    rw [natOfDigits_append_digit, natOfDigits_decimalDigits (n / 10)]
    omega
termination_by n

theorem decimalDigits_lt (n : Nat) : ∀ d ∈ decimalDigits n, d < 10 := by
  rw [decimalDigits_eq]
  split
  · intro d hd
    simp at hd
    omega
  · have hd : n / 10 < n := Nat.div_lt_self (by omega) (by omega)
    intro d hmem
    rcases List.mem_append.1 hmem with h | h
    · exact decimalDigits_lt (n / 10) d h
    · simp at h
      omega
termination_by n

theorem decimalDigits_ne_nil (n : Nat) : decimalDigits n ≠ [] := by
  rw [decimalDigits_eq]
  split <;> simp

theorem decimalDigits_head_ne_zero (n : Nat) (h : n ≠ 0) :
    (decimalDigits n).head? ≠ some 0 := by
  rw [decimalDigits_eq]
  split
  · simpa using h
  · have hd : n / 10 < n := Nat.div_lt_self (by omega) (by omega)
    cases heq : decimalDigits (n / 10) with
    | nil => exact absurd heq (decimalDigits_ne_nil _)
    | cons a t =>
        have ih := decimalDigits_head_ne_zero (n / 10) (by omega)
        rw [heq] at ih
        simpa using ih
termination_by n

theorem charToDigit_ofNat (d : Nat) (h : d < 10) :
    charToDigit (Char.ofNat (48 + d)) = d := by
  interval_cases d <;> decide

theorem map_charToDigit (ds : List Nat) (h : ∀ d ∈ ds, d < 10) :
    (ds.map (fun d => Char.ofNat (48 + d))).map charToDigit = ds := by
  induction ds with
  | nil => rfl
  | cons a t ih =>
      simp only [List.map_cons, List.cons.injEq]
      exact ⟨charToDigit_ofNat a (h a (List.mem_cons_self a t)),
        ih (fun d hd => h d (List.mem_cons_of_mem a hd))⟩

theorem keyVal_decimalRepr (n : Nat) : keyVal (decimalRepr n) = n := by
  show natOfDigits (((decimalDigits n).map (fun d => Char.ofNat (48 + d))).map charToDigit) = n
  rw [map_charToDigit _ (decimalDigits_lt n), natOfDigits_decimalDigits]

theorem decimalRepr_injective : Function.Injective decimalRepr :=
  Function.LeftInverse.injective keyVal_decimalRepr

theorem decimalRepr_no_leading_zero (n : Nat) :
    decimalRepr n = "0" ∨ (decimalRepr n).data.head? ≠ some '0' := by
  by_cases h0 : n = 0
  · left
    subst h0
    rfl
  · right
    show ((decimalDigits n).map (fun d => Char.ofNat (48 + d))).head? ≠ some '0'
    rw [List.head?_map]
    cases heq : (decimalDigits n).head? with
    | none => simp
    | some a =>
        have ha : a ∈ decimalDigits n := by
          cases hl : decimalDigits n with
          | nil => exact absurd hl (decimalDigits_ne_nil n)
          | cons b t =>
              rw [hl] at heq
              simp at heq
              simp [hl, heq]
        have halt : a < 10 := decimalDigits_lt n a ha
        have hne : a ≠ 0 := by
          intro hz
          exact decimalDigits_head_ne_zero n h0 (hz ▸ heq)
        simp only [Option.map_some']
        intro hc
        have : charToDigit (Char.ofNat (48 + a)) = charToDigit '0' := by
          rw [Option.some.injEq] at hc
          rw [hc]
        rw [charToDigit_ofNat a halt] at this
        exact hne (by simpa [charToDigit] using this)

theorem placeholders_add (c m n : Nat) :
    placeholders c (m + n) = placeholders c m ++ placeholders (c + m) n := by
  simp only [placeholders, List.range_add, List.map_append, List.map_map]
  congr 1
  apply List.map_congr_left
  intro i _
  simp only [Function.comp_apply, Nat.add_assoc]

theorem placeholders_succ (c n : Nat) :
    placeholders c (n + 1) =
      { value := Wtf8.valid (decimalRepr c), raw := none } :: placeholders (c + 1) n := by
  have h := placeholders_add c 1 n
  rw [Nat.add_comm 1 n] at h
  rw [h]
  rfl

theorem visit_spec (ns : List Node) (r : StringReplacer) :
    (visitNodes r ns).1.counter = r.counter + (strLits ns).length ∧
    (visitNodes r ns).1.originals = r.originals ++ (strLits ns).map decodeStr ∧
    strLits (visitNodes r ns).2 = placeholders r.counter (strLits ns).length ∧
    eraseNodes (visitNodes r ns).2 = eraseNodes ns := by
  match ns with
  | [] => simp [visitNodes, strLits, eraseNodes, placeholders]
  | .str s :: ns =>
      obtain ⟨ih1, ih2, ih3, ih4⟩ := visit_spec ns (visit_mut_str r s).1
      have hc : (visit_mut_str r s).1.counter = r.counter + 1 := rfl
      have ho : (visit_mut_str r s).1.originals = r.originals ++ [decodeStr s] := rfl
      refine ⟨?_, ?_, ?_, ?_⟩
      · simp only [visitNodes, ih1, hc, strLits, List.length_cons]
        omega
      · simp only [visitNodes, ih2, ho, strLits, List.map_cons, List.append_assoc,
          List.singleton_append]
      · simp only [visitNodes, strLits, ih3, hc, List.length_cons, placeholders_succ]
        rfl
      · simp only [visitNodes, eraseNodes, ih4]
  | .tpl exprs quasis :: ns =>
      obtain ⟨ih1, ih2, ih3, ih4⟩ := visit_spec exprs r
      obtain ⟨jh1, jh2, jh3, jh4⟩ := visit_spec ns (visitNodes r exprs).1
      refine ⟨?_, ?_, ?_, ?_⟩
      · simp only [visitNodes, jh1, ih1, strLits, List.length_append]
        omega
      · simp only [visitNodes, jh2, ih2, strLits, List.map_append, List.append_assoc]
      · simp only [visitNodes, strLits, ih3, jh3, ih1, List.length_append, placeholders_add]
      · simp only [visitNodes, eraseNodes, ih4, jh4]
  | .other kind children :: ns =>
      obtain ⟨ih1, ih2, ih3, ih4⟩ := visit_spec children r
      obtain ⟨jh1, jh2, jh3, jh4⟩ := visit_spec ns (visitNodes r children).1
      refine ⟨?_, ?_, ?_, ?_⟩
      · simp only [visitNodes, jh1, ih1, strLits, List.length_append]
        omega
      · simp only [visitNodes, jh2, ih2, strLits, List.map_append, List.append_assoc]
      · simp only [visitNodes, strLits, ih3, jh3, ih1, List.length_append, placeholders_add]
      · simp only [visitNodes, eraseNodes, ih4, jh4]
termination_by sizeOf ns

theorem visitNodes_of_no_lits (ns : List Node) (r : StringReplacer) (h : strLits ns = []) :
    visitNodes r ns = (r, ns) := by
  match ns with
  | [] => simp [visitNodes]
  | .str s :: ns => simp [strLits] at h
  | .tpl exprs quasis :: ns =>
      rw [strLits, List.append_eq_nil] at h
      rw [visitNodes, visitNodes_of_no_lits exprs r h.1, visitNodes_of_no_lits ns r h.2]
  | .other kind children :: ns =>
      rw [strLits, List.append_eq_nil] at h
      rw [visitNodes, visitNodes_of_no_lits children r h.1, visitNodes_of_no_lits ns r h.2]
termination_by sizeOf ns

theorem mapInsert_of_not_mem (m : List (String × String)) (k v : String)
    (h : k ∉ m.map Prod.fst) : mapInsert m k v = m ++ [(k, v)] := by
  rw [mapInsert, if_neg]
  simpa using h

theorem buildMapping_aux (l : List String) (k : Nat) (acc : List (String × String))
    (hacc : acc.map Prod.fst = (List.range k).map decimalRepr) :
    (l.enumFrom k).foldl (fun map p => mapInsert map (decimalRepr p.1) p.2) acc
      = acc ++ (l.enumFrom k).map (fun p => (decimalRepr p.1, p.2)) := by
  induction l generalizing k acc with
  | nil => simp [List.enumFrom]
  | cons a t ih =>
      have hnotmem : decimalRepr k ∉ acc.map Prod.fst := by
        rw [hacc]
        intro hmem
        obtain ⟨j, hj, hjeq⟩ := List.mem_map.1 hmem
        have := decimalRepr_injective hjeq
        subst this
        exact absurd (List.mem_range.1 hj) (lt_irrefl j)
      have hkeys : (acc ++ [(decimalRepr k, a)]).map Prod.fst
          = (List.range (k + 1)).map decimalRepr := by
        simp [hacc, List.range_succ]
      simp only [List.enumFrom, List.foldl_cons, List.map_cons]
      rw [mapInsert_of_not_mem _ _ _ hnotmem, ih (k + 1) _ hkeys, List.append_assoc,
        List.singleton_append]

theorem buildMapping_eq (l : List String) :
    buildMapping l = l.enum.map (fun p => (decimalRepr p.1, p.2)) :=
  buildMapping_aux l 0 [] (by simp)

theorem serializedKeys_buildMapping (l : List String) :
    serializedKeys (buildMapping l) = (List.range l.length).map decimalRepr := by
  rw [serializedKeys, buildMapping_eq, List.map_map,
    show (Prod.fst ∘ fun p : Nat × String => (decimalRepr p.1, p.2))
      = decimalRepr ∘ (Prod.fst : Nat × String → Nat) from rfl,
    ← List.map_map, List.enum_map_fst]

theorem find?_enumFrom_map (l : List String) (k i : Nat) (hik : k ≤ i)
    (hlt : i < k + l.length) :
    ((l.enumFrom k).map (fun p => (decimalRepr p.1, p.2))).find?
        (fun p => p.1 == decimalRepr i)
      = (l[i - k]?).map (fun v => (decimalRepr i, v)) := by
  induction l generalizing k with
  | nil => simp at hlt; omega
  | cons a t ih =>
      simp only [List.enumFrom, List.map_cons]
      by_cases hk : i = k
      · subst hk
        rw [List.find?_cons_of_pos _ (by simp), Nat.sub_self]
        simp
      · rw [List.find?_cons_of_neg _ (by simp; exact fun hc => hk (decimalRepr_injective hc).symm)]
        rw [ih (k + 1) (by omega) (by simp at hlt ⊢; omega)]
        have hs : i - k = (i - (k + 1)) + 1 := by omega
        rw [hs]
        simp

theorem mapGet_buildMapping (l : List String) (i : Nat) (h : i < l.length) :
    mapGet (buildMapping l) (decimalRepr i) = some l[i] := by
  rw [mapGet, buildMapping_eq]
  have henum : l.enum = l.enumFrom 0 := rfl
  rw [henum, find?_enumFrom_map l 0 i (Nat.zero_le i) (by omega), Nat.sub_zero,
    List.getElem?_eq_getElem h]
  rfl

theorem mem_buildMapping (l : List String) :
    ∀ p ∈ buildMapping l, ∃ i, ∃ hi : i < l.length, p.1 = decimalRepr i ∧ p.2 = l[i] := by
  intro p hp
  rw [buildMapping_eq] at hp
  obtain ⟨q, hq, hpq⟩ := List.mem_map.1 hp
  obtain ⟨j, x⟩ := q
  rw [List.mk_mem_enum_iff_getElem?] at hq
  obtain ⟨hj, hx⟩ := List.getElem?_eq_some.1 hq
  exact ⟨j, hj, by rw [← hpq], by rw [← hpq, hx]⟩

theorem restore_spec (m : List (String × String)) (ns : List Node) :
    strLits (restoreNodes m ns) = (strLits ns).map (restoreStr m) ∧
    eraseNodes (restoreNodes m ns) = eraseNodes ns := by
  match ns with
  | [] => simp [restoreNodes, strLits, eraseNodes]
  | .str s :: ns =>
      obtain ⟨ih1, ih2⟩ := restore_spec m ns
      constructor <;> simp [restoreNodes, strLits, eraseNodes, ih1, ih2]
  | .tpl exprs quasis :: ns =>
      obtain ⟨ih1, ih2⟩ := restore_spec m exprs
      obtain ⟨jh1, jh2⟩ := restore_spec m ns
      constructor <;> simp [restoreNodes, strLits, eraseNodes, ih1, ih2, jh1, jh2]
  | .other kind children :: ns =>
      obtain ⟨ih1, ih2⟩ := restore_spec m children
      obtain ⟨jh1, jh2⟩ := restore_spec m ns
      constructor <;> simp [restoreNodes, strLits, eraseNodes, ih1, ih2, jh1, jh2]
termination_by sizeOf ns

theorem placeholders_length (c n : Nat) : (placeholders c n).length = n := by
  simp [placeholders]

theorem placeholders_zero_counter (n : Nat) :
    placeholders 0 n
      = (List.range n).map (fun i => { value := Wtf8.valid (decimalRepr i), raw := none }) := by
  simp [placeholders]

/-- C1: after one traversal from a fresh `StringReplacer`, the string-literal
nodes `L0, ..., Ln-1` (in source order) hold exactly the decimal strings
"0", "1", ..., "n-1" in that order, and the mapping built from the recorded
originals satisfies `mapping[decimal i] = original decoded value of Li` for
every `i < n`. -/
theorem C1_order_preservation (ns : List Node) :
    strLits (visitNodes StringReplacer.new ns).2
      = (List.range (strLits ns).length).map
          (fun i => { value := Wtf8.valid (decimalRepr i), raw := none }) ∧
    (List.range (strLits ns).length).map
        (fun i => mapGet (buildMapping (visitNodes StringReplacer.new ns).1.originals)
          (decimalRepr i))
      = (strLits ns).map (fun s => some (decodeStr s)) := by
  obtain ⟨h1, h2, h3, h4⟩ := visit_spec ns StringReplacer.new
  have ho : (visitNodes StringReplacer.new ns).1.originals = (strLits ns).map decodeStr := by
    rw [h2]
    rfl
  constructor
  · rw [h3]
    exact placeholders_zero_counter _
  · rw [ho]
    apply List.ext_getElem
    · simp
    · intro j hj1 hj2
      have hjlt : j < (strLits ns).length := by simpa using hj2
      have hjm : j < ((strLits ns).map decodeStr).length := by simpa using hjlt
      simp only [List.getElem_map, List.getElem_range]
      rw [mapGet_buildMapping _ j hjm]
      simp

/-- C2: the visitor neither mutates nor counts template static segments: a
template literal whose interpolations contain no plain string literal is
returned entirely unchanged and contributes nothing to the counter or the
record; and on any tree, everything other than string-literal values and raw
caches is left unchanged. -/
theorem C2_template_statics_untouched (r : StringReplacer) (exprs : List Node)
    (quasis : List TplElement) (h : strLits exprs = []) :
    visitNodes r [Node.tpl exprs quasis] = (r, [Node.tpl exprs quasis]) ∧
    ∀ ns : List Node, eraseNodes (visitNodes r ns).2 = eraseNodes ns := by
  constructor
  · rw [visitNodes, visitNodes_of_no_lits exprs r h, visitNodes]
  · intro ns
    exact (visit_spec ns r).2.2.2

/-- Witness for C2 at a template literal with one static segment and one
non-literal interpolation. -/
theorem C2_witness :
    strLits [Node.other "Ident" []] = [] ∧
    visitNodes StringReplacer.new
        [Node.tpl [Node.other "Ident" []] [{ cooked := some "static", raw := "static" }]]
      = (StringReplacer.new,
         [Node.tpl [Node.other "Ident" []] [{ cooked := some "static", raw := "static" }]]) :=
  ⟨by simp [strLits],
   (C2_template_statics_untouched StringReplacer.new [Node.other "Ident" []]
      [{ cooked := some "static", raw := "static" }] (by simp [strLits])).1⟩

/-- C3: a string-literal node whose content cannot be decoded is recorded as
the empty string; the node still receives the next sequential decimal
placeholder, the counter increments exactly once, and the traversal
continues over the rest of the tree. -/
theorem C3_decode_failure (r : StringReplacer) (s : Str) (rest : List Node)
    (h : s.value.as_str = none) :
    visit_mut_str r s
        = ({ counter := r.counter + 1, originals := r.originals ++ [""] },
           { value := Wtf8.valid (decimalRepr r.counter), raw := none }) ∧
    visitNodes r (Node.str s :: rest)
        = ((visitNodes ⟨r.counter + 1, r.originals ++ [""]⟩ rest).1,
           Node.str { value := Wtf8.valid (decimalRepr r.counter), raw := none }
             :: (visitNodes ⟨r.counter + 1, r.originals ++ [""]⟩ rest).2) ∧
    (visitNodes r (Node.str s :: rest)).1.counter = r.counter + 1 + (strLits rest).length := by
  have hv : visit_mut_str r s
      = ({ counter := r.counter + 1, originals := r.originals ++ [""] },
         { value := Wtf8.valid (decimalRepr r.counter), raw := none }) := by
    simp [visit_mut_str, h]
  refine ⟨hv, ?_, ?_⟩
  · rw [visitNodes, hv]
  · rw [visitNodes, hv]
    have := (visit_spec rest
      ({ counter := r.counter + 1, originals := r.originals ++ [""] } : StringReplacer)).1
    simpa using this

/-- Witness for C3: an undecodable literal followed by a decodable one. -/
theorem C3_witness :
    (Wtf8.invalid.as_str = none) ∧
    visitNodes StringReplacer.new
        [Node.str { value := Wtf8.invalid, raw := some "bad" },
         Node.str { value := Wtf8.valid "a", raw := none }]
      = ({ counter := 2, originals := ["", "a"] },
         [Node.str { value := Wtf8.valid "0", raw := none },
          Node.str { value := Wtf8.valid "1", raw := none }]) :=
  ⟨rfl,
   ((C3_decode_failure StringReplacer.new { value := Wtf8.invalid, raw := some "bad" }
        [Node.str { value := Wtf8.valid "a", raw := none }] rfl).2.1).trans
     (by simp [StringReplacer.new, visitNodes, visit_mut_str, Wtf8.as_str]
         constructor <;> rfl)⟩

/-- C4: building the mapping from a record of length `N` inserts exactly the
pairs `(decimal i, record[i])` for `i < N`: every such key looks up to
`record[i]`, every entry of the table is of that form, and the empty record
yields the empty table. -/
theorem C4_build_mapping (record : List String) :
    (∀ i (hi : i < record.length),
        mapGet (buildMapping record) (decimalRepr i) = some record[i]) ∧
    (∀ p ∈ buildMapping record, ∃ i, ∃ hi : i < record.length,
        p.1 = decimalRepr i ∧ p.2 = record[i]) ∧
    buildMapping [] = [] :=
  ⟨fun i hi => mapGet_buildMapping record i hi, mem_buildMapping record, rfl⟩

/-- Witness for C4 at a two-element record. -/
theorem C4_witness :
    mapGet (buildMapping ["a", "b"]) (decimalRepr 1) = some "b" ∧ buildMapping [] = [] :=
  ⟨(C4_build_mapping ["a", "b"]).1 1 (by decide), (C4_build_mapping ["a", "b"]).2.2⟩

/-- C5: the mapping is a lossless inverse of the substitution: putting
`mapping[p]` back into every literal holding a placeholder `p` restores, at
every literal position, the original decoded value, and leaves everything
except literal payloads (quoting/raw caches aside) as in the input tree. -/
theorem C5_round_trip (ns : List Node) :
    strLits (restoreNodes (buildMapping (visitNodes StringReplacer.new ns).1.originals)
        (visitNodes StringReplacer.new ns).2)
      = (strLits ns).map (fun s => { value := Wtf8.valid (decodeStr s), raw := none }) ∧
    eraseNodes (restoreNodes (buildMapping (visitNodes StringReplacer.new ns).1.originals)
        (visitNodes StringReplacer.new ns).2)
      = eraseNodes ns := by
  obtain ⟨h1, h2, h3, h4⟩ := visit_spec ns StringReplacer.new
  have ho : (visitNodes StringReplacer.new ns).1.originals = (strLits ns).map decodeStr := by
    rw [h2]
    rfl
  obtain ⟨g1, g2⟩ := restore_spec
    (buildMapping (visitNodes StringReplacer.new ns).1.originals)
    (visitNodes StringReplacer.new ns).2
  constructor
  · rw [g1, h3]
    apply List.ext_getElem
    · simp [placeholders_length]
    · intro j hj1 hj2
      have hjlt : j < (strLits ns).length := by simpa using hj2
      have hjm : j < ((strLits ns).map decodeStr).length := by simpa using hjlt
      have hc : StringReplacer.new.counter = 0 := rfl
      simp only [List.getElem_map, placeholders, List.getElem_range, hc, Nat.zero_add]
      simp only [restoreStr, ho, mapGet_buildMapping _ j hjm]
      simp
  · rw [g2, h4]

/-- C7: after traversal, every substituted string-literal node's raw cache
has been cleared: the raw field of each literal in the output is `none`. -/
theorem C7_raw_cache_cleared (r : StringReplacer) (ns : List Node) :
    (strLits (visitNodes r ns).2).map Str.raw
      = List.replicate (strLits ns).length none := by
  rw [(visit_spec ns r).2.2.1]
  simp [placeholders, List.map_map, Function.comp_def]

/-- C8: partial runs stay consistent: after visiting any prefix of the tree
from a fresh state, the counter equals the record length, the record holds
exactly the decoded originals of the literals visited so far, the literals
visited so far hold placeholders `0..counter-1`; and from any state whose
counter equals its record length, any further traversal preserves that
pairing. -/
theorem C8_prefix_consistency (pre : List Node) :
    (visitNodes StringReplacer.new pre).1.counter
        = (visitNodes StringReplacer.new pre).1.originals.length ∧
    (visitNodes StringReplacer.new pre).1.originals = (strLits pre).map decodeStr ∧
    strLits (visitNodes StringReplacer.new pre).2
        = placeholders 0 (visitNodes StringReplacer.new pre).1.counter ∧
    ∀ (r : StringReplacer) (ns : List Node), r.counter = r.originals.length →
      (visitNodes r ns).1.counter = (visitNodes r ns).1.originals.length := by
  obtain ⟨h1, h2, h3, h4⟩ := visit_spec pre StringReplacer.new
  have ho : (visitNodes StringReplacer.new pre).1.originals = (strLits pre).map decodeStr := by
    rw [h2]
    rfl
  refine ⟨?_, ho, ?_, ?_⟩
  · rw [h1, ho]
    simp [StringReplacer.new]
  · rw [h3, h1]
    simp [StringReplacer.new]
  · intro r ns hr
    obtain ⟨k1, k2, _, _⟩ := visit_spec ns r
    rw [k1, k2, List.length_append, List.length_map, hr]

/-- Witness for C8: invariant preservation from a consistent mid-run state. -/
theorem C8_witness :
    (visitNodes { counter := 1, originals := ["x"] }
        [Node.str { value := Wtf8.valid "y", raw := none }]).1.counter
      = (visitNodes { counter := 1, originals := ["x"] }
          [Node.str { value := Wtf8.valid "y", raw := none }]).1.originals.length :=
  (C8_prefix_consistency []).2.2.2 { counter := 1, originals := ["x"] }
    [Node.str { value := Wtf8.valid "y", raw := none }] (by decide)

/-- C9: placeholder assignment is deterministic: two runs from fresh state on
equal trees give identical results, records and mappings, and the assigned
placeholders are a function of position alone. -/
theorem C9_determinism (t1 t2 : List Node) (h : t1 = t2) :
    visitNodes StringReplacer.new t1 = visitNodes StringReplacer.new t2 ∧
    buildMapping (visitNodes StringReplacer.new t1).1.originals
      = buildMapping (visitNodes StringReplacer.new t2).1.originals ∧
    strLits (visitNodes StringReplacer.new t1).2 = placeholders 0 (strLits t2).length := by
  subst h
  refine ⟨rfl, rfl, ?_⟩
  have h3 := (visit_spec t1 StringReplacer.new).2.2.1
  simpa [StringReplacer.new] using h3

/-- Witness for C9 at a concrete one-literal tree. -/
theorem C9_witness :
    visitNodes StringReplacer.new [Node.str { value := Wtf8.valid "q", raw := none }]
      = visitNodes StringReplacer.new [Node.str { value := Wtf8.valid "q", raw := none }] :=
  (C9_determinism [Node.str { value := Wtf8.valid "q", raw := none }]
    [Node.str { value := Wtf8.valid "q", raw := none }] rfl).1

/-- C10: a string-literal node nested under a node of any other kind — in
particular TypeScript type-annotation nodes such as a type alias whose body
is a string-literal type — is substituted exactly like a value-position
literal, consuming the next sequential index. -/
theorem C10_type_position_literals (r : StringReplacer) (kind : String) (s : Str)
    (rest : List Node) :
    visitNodes r (Node.other kind [Node.str s] :: rest)
      = ((visitNodes ⟨r.counter + 1, r.originals ++ [decodeStr s]⟩ rest).1,
         Node.other kind [Node.str { value := Wtf8.valid (decimalRepr r.counter), raw := none }]
           :: (visitNodes ⟨r.counter + 1, r.originals ++ [decodeStr s]⟩ rest).2) := by
  have hv : visitNodes r [Node.str s]
      = ({ counter := r.counter + 1, originals := r.originals ++ [decodeStr s] },
         [Node.str { value := Wtf8.valid (decimalRepr r.counter), raw := none }]) := by
    rw [visitNodes, visitNodes]
    simp [visit_mut_str, decodeStr]
  rw [visitNodes, hv]

/-- C6: the serialized mapping's keys are exactly the decimal strings
"0", ..., "N-1" with no leading zeros, emitted in increasing numeric order
for every record length `N`, including `N > 10`. -/
theorem C6_serialized_key_order (record : List String) :
    serializedKeys (buildMapping record) = (List.range record.length).map decimalRepr ∧
    List.Pairwise (fun a b => keyVal a < keyVal b) (serializedKeys (buildMapping record)) ∧
    ∀ k ∈ serializedKeys (buildMapping record), k = "0" ∨ k.data.head? ≠ some '0' := by
  refine ⟨serializedKeys_buildMapping record, ?_, ?_⟩
  · rw [serializedKeys_buildMapping, List.pairwise_map]
    apply List.Pairwise.imp ?_ (List.pairwise_lt_range record.length)
    intro a b hab
    simpa [keyVal_decimalRepr] using hab
  · intro k hk
    rw [serializedKeys_buildMapping] at hk
    obtain ⟨i, _, rfl⟩ := List.mem_map.1 hk
    exact decimalRepr_no_leading_zero i

/-- Witness for C6 at a record with twelve entries, exercising the key "10"
that numeric and lexicographic orderings would place differently. -/
theorem C6_witness :
    serializedKeys (buildMapping ["a", "b", "c", "d", "e", "f", "g", "h", "i", "j", "k", "l"])
      = (List.range 12).map decimalRepr ∧
    ("10" = "0" ∨ ("10" : String).data.head? ≠ some '0') :=
  ⟨(C6_serialized_key_order ["a", "b", "c", "d", "e", "f", "g", "h", "i", "j", "k", "l"]).1,
   (C6_serialized_key_order ["a", "b", "c", "d", "e", "f", "g", "h", "i", "j", "k", "l"]).2.2
     "10" (by decide)⟩
